import Mathlib

/-!
Shallow embedding of the RAG core of `src/core/rag.py` (class `RAGSystem`).

Modelling conventions:
* Python `str` is `String`; slicing, `strip()`, `split()` and the `in`
  substring test are modelled character-exactly over `List Char`.
* Python `int` is `Int` (chunking arithmetic) or `Nat` (list indices).
* Python `float` vectors are modelled over `ℝ` (exact reals), so
  `np.sqrt`/`np.dot`/`np.linalg.norm` are `Real.sqrt` and exact sums;
  keyword-overlap scores (ratios of small integers, exact in floats)
  are modelled over `ℚ`.
* The external collaborators (OpenAI embedding / chat completion, storage)
  are oracles carried in `Config`; an embedding failure is the empty list,
  mirroring `_get_embedding`'s `return []` on error.
* `self.documents` / `self.embeddings` / `self.vector_store` form `RAGState`;
  a Python `dict` is an insertion-ordered association list where an update
  of an existing key keeps its slot (`dictInsert`).
* In-place mutation is modelled by returning the updated state; persistence
  (`_save_vector_store`) performs no state change and is dropped.
-/

namespace Chatbot

/-! ### Python string primitives -/

/-- Python `pat in s` (substring containment) on character lists. -/
def hasInfix (l pat : List Char) : Bool :=
  pat.isPrefixOf l ||
    match l with
    | [] => false
    | _ :: rest => hasInfix rest pat

/-- Python `pat in s` for strings. -/
def strContains (s pat : String) : Bool :=
  hasInfix s.toList pat.toList

/-- Python `s.strip()`: drop whitespace from both ends. -/
def pyStrip (s : String) : String :=
  String.mk (((s.toList.dropWhile Char.isWhitespace).reverse.dropWhile Char.isWhitespace).reverse)

/-- Helper for `pyWords`: accumulate the current (reversed) word. -/
def pyWordsAux : List Char → List Char → List String
  | [], cur => if cur.isEmpty then [] else [String.mk cur.reverse]
  | c :: rest, cur =>
    if c.isWhitespace then
      if cur.isEmpty then pyWordsAux rest [] else String.mk cur.reverse :: pyWordsAux rest []
    else pyWordsAux rest (c :: cur)

/-- Python `s.split()` with no arguments: split on whitespace runs, no empty parts. -/
def pyWords (s : String) : List String :=
  pyWordsAux s.toList []

/-- Python `filename.rsplit('.', 1)[0]`: everything before the last dot. -/
def stripExtension (filename : String) : String :=
  String.mk (((filename.toList.reverse.dropWhile (fun c => c != '.')).drop 1).reverse)

/-- Effective index of a Python slice bound `i` on a sequence of length `n`:
negative indices count from the end, and both ends are clamped into `[0, n]`. -/
def pyIdx (n : Nat) (i : Int) : Nat :=
  (max 0 (min (if i < 0 then (n : Int) + i else i) (n : Int))).toNat

/-- Python `l[a:b]` (step 1). -/
def pySlice (l : List Char) (a b : Int) : List Char :=
  (l.drop (pyIdx l.length a)).take (pyIdx l.length b - pyIdx l.length a)

/-! ### Chunker: `RAGSystem._split_text`

The source is a `while start < len(text)` loop:
```
while start < len(text):
    end = start + self.chunk_size
    chunk = text[start:end]
    chunks.append(chunk)
    start = end - self.chunk_overlap
    if start >= len(text):
        break
```
The loop is modelled with explicit fuel; `none` means the fuel bound was hit,
so `∀ fuel, … = none` states that the loop never terminates.  The `except`
fallback of `_split_text` is unreachable here: no statement of the loop body
raises, short of memory exhaustion, which the model does not represent. -/

def splitTextGo (chunk_size chunk_overlap : Int) (text : List Char) :
    Nat → Int → List (List Char) → Option (List (List Char))
  | 0, _, _ => none
  | fuel + 1, start, chunks =>
    if start < (text.length : Int) then
      let e := start + chunk_size
      let chunk := pySlice text start e
      let chunks' := chunks ++ [chunk]
      let start' := e - chunk_overlap
      if (text.length : Int) ≤ start' then some chunks'
      else splitTextGo chunk_size chunk_overlap text fuel start' chunks'
    else some chunks

/-- `RAGSystem._split_text`, with fuel `len(text) + 1` (enough iterations for
any configuration with positive step, since each window advances by at least
one character). -/
def splitText (chunk_size chunk_overlap : Int) (text : String) : Option (List String) :=
  (splitTextGo chunk_size chunk_overlap text.toList (text.length + 1) 0 []).map
    (fun cl => cl.map String.mk)

/-! ### Data model -/

/-- One chunk record of `self.documents`. -/
structure Doc where
  content : String
  filename : String
  stored_filename : String
  chunk_id : Nat
deriving DecidableEq

instance : Inhabited Doc := ⟨⟨"", "", "", 0⟩⟩

/-- An embedding vector (`List[float]`). -/
abbrev Vec := List ℝ

/-- One conversation turn of `chat_history` (only `question`/`answer` are read). -/
structure Turn where
  question : String
  answer : String
deriving DecidableEq

/-- The mutable index state of `RAGSystem`. -/
structure RAGState where
  documents : List Doc
  embeddings : List Vec
  vector_store : List (String × Vec)

/-- Configuration and external oracles of `RAGSystem`. -/
structure Config where
  openai_api_key : Option String
  chunk_size : Int
  chunk_overlap : Int
  embed : String → List ℝ
  chat : String → String → String

/-- The key `f"{filename}_{chunk_id}"` of `self.vector_store`. -/
def chunkKey (filename : String) (chunk_id : Nat) : String :=
  filename ++ "_" ++ Nat.repr chunk_id

/-- Python `dict` assignment `m[k] = v`: an existing key keeps its slot,
a new key is appended. -/
def dictInsert (m : List (String × Vec)) (k : String) (v : Vec) : List (String × Vec) :=
  match m with
  | [] => [(k, v)]
  | (k', v') :: rest => if k' = k then (k', v) :: rest else (k', v') :: dictInsert rest k v

/-- The lookup-map rebuild of `remove_document`:
`for i, doc in enumerate(documents): vector_store[key(doc)] = embeddings[i]`. -/
def buildStore (docs : List Doc) (embs : List Vec) : List (String × Vec) :=
  (docs.zip embs).foldl (fun m p => dictInsert m (chunkKey p.1.filename p.1.chunk_id) p.2) []

/-- `indices_to_remove` of `remove_document`, counting positions from `i`. -/
def indicesToRemoveFrom (docs : List Doc) (filename : String) (i : Nat) : List Nat :=
  match docs with
  | [] => []
  | d :: rest =>
    if d.filename = filename then i :: indicesToRemoveFrom rest filename (i + 1)
    else indicesToRemoveFrom rest filename (i + 1)

/-- Deleting the positions `idxs` from a list (position counter starts at `i`).
The source deletes them in place in descending order (`for i in
reversed(indices_to_remove): del lst[i]`), which removes exactly these
positions. -/
def deleteIndicesFrom (l : List α) (idxs : List Nat) (i : Nat) : List α :=
  match l with
  | [] => []
  | a :: rest =>
    if i ∈ idxs then deleteIndicesFrom rest idxs (i + 1)
    else a :: deleteIndicesFrom rest idxs (i + 1)

/-- `RAGSystem.remove_document`. -/
def removeDocument (s : RAGState) (filename : String) : Bool × RAGState :=
  let idxs := indicesToRemoveFrom s.documents filename 0
  let docs := deleteIndicesFrom s.documents idxs 0
  let embs := deleteIndicesFrom s.embeddings idxs 0
  (true, { documents := docs, embeddings := embs, vector_store := buildStore docs embs })

/-- The per-chunk body of `add_document`'s embedding loop: skip the chunk when
the embedding oracle returns `[]` (falsy), otherwise append the parallel
(chunk, vector) pair and update the lookup map. -/
def ingestChunk (cfg : Config) (actual_filename stored_filename : String)
    (s : RAGState) (p : Nat × String) : RAGState :=
  let embedding := cfg.embed p.2
  if embedding.isEmpty then s
  else
    { documents := s.documents ++
        [{ content := p.2, filename := actual_filename,
           stored_filename := stored_filename, chunk_id := p.1 }],
      embeddings := s.embeddings ++ [embedding],
      vector_store := dictInsert s.vector_store (chunkKey actual_filename p.1) embedding }

/-- `RAGSystem.add_document`, after the storage / filename-resolution I/O:
`content` is the loaded text, `actual_filename`/`stored_filename` the resolved
names. `none` propagates a non-terminating `_split_text` call. -/
def addDocument (cfg : Config) (s : RAGState) (content actual_filename stored_filename : String) :
    Option (Bool × RAGState) :=
  (splitText cfg.chunk_size cfg.chunk_overlap content).map
    (fun chunks => (true, chunks.enum.foldl (ingestChunk cfg actual_filename stored_filename) s))

/-- The per-document body of `rebuild_index`'s loop. -/
def rebuildStep (cfg : Config) (st : RAGState) (doc : Doc) : RAGState :=
  let embedding := cfg.embed doc.content
  if embedding.isEmpty then st
  else
    { documents := st.documents ++ [doc],
      embeddings := st.embeddings ++ [embedding],
      vector_store := dictInsert st.vector_store (chunkKey doc.filename doc.chunk_id) embedding }

/-- `RAGSystem.rebuild_index`: re-embed every stored chunk from scratch. -/
def rebuildIndex (cfg : Config) (s : RAGState) : Bool × RAGState :=
  let old_documents := s.documents
  (true, old_documents.foldl (rebuildStep cfg)
    { documents := [], embeddings := [], vector_store := [] })

/-- `RAGSystem.clear_index`. -/
def clearIndex (_s : RAGState) : Bool × RAGState :=
  (true, { documents := [], embeddings := [], vector_store := [] })

/-! ### Keyword extraction and conversation-memory selection -/

/-- The Korean stopword list of `_extract_keywords`. -/
def stopwords : List String :=
  ["은", "는", "이", "가", "을", "를", "에", "의", "로", "으로", "에서", "에게", "와", "과",
   "도", "만", "부터", "까지", "한", "두", "세", "네", "다섯", "여섯", "일곱", "여덟", "아홉", "열"]

/-- `RAGSystem._extract_keywords`. -/
def extractKeywords (text : String) : List String :=
  let words := pyWords text
  let keywords := words.filter (fun w => !(stopwords.contains w) && decide (1 < w.length))
  if ["조", "항", "호", "목"].any (fun k => strContains text k) then
    keywords ++ ["조항", "법조문", "규정"]
  else keywords

/-- Greedy match of `\d+X` at the head of `l`: one or more digits followed by
the character `suffix`; returns the match and the remainder. -/
def matchNumThen (suffix : Char) (l : List Char) : Option (List Char × List Char) :=
  let ds := l.takeWhile Char.isDigit
  if ds.isEmpty then none
  else
    match l.drop ds.length with
    | c :: rest => if c = suffix then some (ds ++ [c], rest) else none
    | [] => none

/-- Match of `제\d+X` at the head of `l`. -/
def matchJeNumThen (suffix : Char) (l : List Char) : Option (List Char × List Char) :=
  match l with
  | c :: rest =>
    if c = '제' then (matchNumThen suffix rest).map (fun p => ('제' :: p.1, p.2)) else none
  | [] => none

/-- `re.findall(r'\d+X', s)`: scan left to right, non-overlapping; on failure
advance one character. Every step consumes at least one character, so fuel
`l.length` never runs out. -/
def findNumTokensGo (suffix : Char) : Nat → List Char → List String
  | 0, _ => []
  | fuel + 1, l =>
    match matchNumThen suffix l with
    | some p => String.mk p.1 :: findNumTokensGo suffix fuel p.2
    | none =>
      match l with
      | [] => []
      | _ :: rest => findNumTokensGo suffix fuel rest

def findNumTokens (suffix : Char) (l : List Char) : List String :=
  findNumTokensGo suffix l.length l

/-- `re.findall(r'제\d+X', s)`. -/
def findJeNumTokensGo (suffix : Char) : Nat → List Char → List String
  | 0, _ => []
  | fuel + 1, l =>
    match matchJeNumThen suffix l with
    | some p => String.mk p.1 :: findJeNumTokensGo suffix fuel p.2
    | none =>
      match l with
      | [] => []
      | _ :: rest => findJeNumTokensGo suffix fuel rest

def findJeNumTokens (suffix : Char) (l : List Char) : List String :=
  findJeNumTokensGo suffix l.length l

/-- `RAGSystem._extract_article_info`: the eight regex patterns, in source
order, each scanned with `re.findall`. -/
def extractArticleInfo (answer_text : String) : List String :=
  let l := answer_text.toList
  findJeNumTokens '조' l ++ findJeNumTokens '항' l ++ findJeNumTokens '호' l ++
    findJeNumTokens '목' l ++ findNumTokens '조' l ++ findNumTokens '항' l ++
    findNumTokens '호' l ++ findNumTokens '목' l

/-- The fixed context-continuation cue phrases of `_select_relevant_context`. -/
def contextConnectionKeywords : List String :=
  ["관련", "조항", "내용", "그것", "이것", "해당", "위에서", "앞서"]

/-- The article-question cue phrases of `_select_relevant_context`. -/
def articleQuestionKeywords : List String :=
  ["조", "항", "호", "목", "몇", "조항", "규정", "내용"]

/-- `RAGSystem._select_relevant_context`. Keyword sets are `dedup`ed lists;
the final `sort(reverse=True)` is modelled as a stable descending sort on the
score component. -/
def selectRelevantContext (current_question : String) (chat_history : List Turn)
    (max_contexts : Nat) : List Turn :=
  if chat_history.isEmpty then []
  else
    let recent_history :=
      if chat_history.length > 50 then chat_history.drop (chat_history.length - 50)
      else chat_history
    if recent_history.isEmpty then []
    else
      let current_keywords := (extractKeywords current_question).dedup
      let is_context_question :=
        contextConnectionKeywords.any (fun k => strContains current_question k)
      if current_keywords.isEmpty || current_keywords.length < 2 || is_context_question then
        recent_history.drop (recent_history.length - 1)
      else
        let is_article_question :=
          articleQuestionKeywords.any (fun k => strContains current_question k)
        let scored_contexts := recent_history.filterMap (fun conv =>
          let conv_keywords := (extractKeywords (conv.question ++ " " ++ conv.answer)).dedup
          let overlap0 := (current_keywords.filter (fun k => conv_keywords.contains k)).length
          let article_info := extractArticleInfo conv.answer
          let overlap :=
            if is_article_question && !article_info.isEmpty then
              overlap0 + article_info.length * 2
            else overlap0
          if 0 < overlap then
            some (((overlap : ℚ) / (current_keywords.length : ℚ), conv))
          else none)
        let sorted := scored_contexts.insertionSort (fun a b => b.1 ≤ a.1)
        (sorted.take max_contexts).map Prod.snd

/-! ### Cosine similarity (`RAGSystem._cosine_similarity`) -/

/-- `np.dot` on equal-length float vectors. -/
noncomputable def dotProduct (v w : List ℝ) : ℝ :=
  ((v.zip w).map (fun p => p.1 * p.2)).sum

/-- `np.linalg.norm`. -/
noncomputable def vecNorm (v : List ℝ) : ℝ :=
  Real.sqrt (dotProduct v v)

open Classical in
/-- `RAGSystem._cosine_similarity`: 0 when either norm is 0 (the
division-by-zero guard), else the normalized dot product. -/
noncomputable def cosineSimilarity (v w : List ℝ) : ℝ :=
  if vecNorm v = 0 ∨ vecNorm w = 0 then 0
  else dotProduct v w / (vecNorm v * vecNorm w)

/-! ### Retrieval and context assembly -/

/-- `RAGSystem._get_related_chunk_indices`. -/
def getRelatedChunkIndices (docs : List Doc) (chunk_idx : Nat) : List Nat :=
  let filename := (docs.getD chunk_idx default).filename
  chunk_idx :: (docs.enum.filter (fun p => p.2.filename == filename)).map Prod.fst

/-- The `(chunk_id, index, content)` triples of `_get_connected_chunks` after
sorting by `chunk_id`, filtering to the `±2` window around the matched chunk,
and truncating to at most 3 entries. -/
def selectedWindow (docs : List Doc) (chunk_idx : Nat) : List (Nat × Nat × String) :=
  let current := docs.getD chunk_idx default
  let same_file_chunks := (docs.enum.filter (fun p => p.2.filename == current.filename)).map
    (fun p => (p.2.chunk_id, p.1, p.2.content))
  let sorted_chunks := same_file_chunks.insertionSort (fun a b => a.1 ≤ b.1)
  let selected := sorted_chunks.filter
    (fun t => decide (((t.1 : Int) - (current.chunk_id : Int)).natAbs ≤ 2))
  if selected.length > 3 then selected.take 3 else selected

/-- `RAGSystem._get_connected_chunks`. -/
def getConnectedChunks (docs : List Doc) (chunk_idx : Nat) (_display_name : String) : String :=
  let selected_chunks := selectedWindow docs chunk_idx
  let connected_content := selected_chunks.foldl (fun acc t => acc ++ t.2.2 ++ "\n") ""
  pyStrip connected_content

/-- `RAGSystem._handle_filename_question`. -/
def handleFilenameQuestion (s : RAGState) (_question : String) : String :=
  let unique_filenames := (s.documents.map (fun d => d.filename)).dedup
  if unique_filenames.isEmpty then "현재 저장된 문서가 없습니다."
  else
    let filename_list := unique_filenames.insertionSort (fun a b => a ≤ b)
    if filename_list.length = 1 then
      "현재 저장된 문서는 '" ++ filename_list.getD 0 "" ++ "'입니다."
    else
      "현재 저장된 문서는 총 " ++ Nat.repr filename_list.length ++ "개입니다:\n\n" ++
        String.intercalate "\n" (filename_list.map (fun f => "- " ++ f))

/-! ### The query path (`RAGSystem.query`) -/

def noDocumentsMsg : String :=
  "아직 문서가 추가되지 않았습니다. 먼저 문서를 업로드해주세요."

def notConfiguredMsg : String :=
  "OpenAI API 키가 설정되지 않았습니다. 관리자에게 문의해주세요."

def embeddingFailedMsg : String :=
  "질문 처리 중 오류가 발생했습니다."

def noRelevantDocumentMsg : String :=
  "관련 문서를 찾을 수 없습니다."

/-- The filename-question cue words checked by `query`. -/
def filenameKeywords : List String :=
  ["파일명", "문서명", "저장하고 있는", "업로드된", "문서가 뭐",
   "저장되어 있는", "문서 목록", "목록", "리스트", "어떤 문서",
   "무슨 문서", "문서들", "파일들", "업로드한", "등록된"]

/-- The fixed part of the user prompt built by `query` (before the retrieved
context is appended). -/
def promptHeader : String :=
  "다음 문서들을 바탕으로 질문에 답변해주세요.\n" ++
  "각 문서의 제목(파일명)을 주의 깊게 살펴보고, 해당 문서와 관련된 내용을 우선적으로 참고해주세요.\n\n" ++
  "**절대 금지사항:**\n" ++
  "- 제공된 문서에 없는 조항, 법령, 규정을 언급하지 마세요\n" ++
  "- 외부 지식이나 일반적인 법률 지식을 사용하지 마세요\n" ++
  "- 시행령, 시행규칙 등 문서에 없는 법령을 언급하지 마세요\n\n" ++
  "중요 지침: \n" ++
  "1. 오직 제공된 문서의 내용만을 사용하여 답변해주세요.\n" ++
  "2. \"이\", \"그\", \"위에서\", \"앞서\", \"해당\" 등의 참조 표현이 있다면 해당 내용을 찾아 연결해주세요.\n" ++
  "3. 단계별 설명이나 순서가 있는 내용은 그 흐름을 유지하여 답변해주세요.\n" ++
  "4. 제공된 문서에 질문에 대한 답변이 없다면, 추측하지 말고 \"제공된 문서에는 해당 내용이 없습니다\"라고 명확히 답변해주세요.\n" ++
  "5. 이전 대화에서 언급된 조항이나 규정에 대한 추가 질문인 경우, 이전 답변의 맥락을 참고하여 답변해주세요.\n" ++
  "6. \"관련 조항\", \"그것\", \"해당 내용\" 등 맥락 연결 질문의 경우, 이전 대화에서 언급된 주제와 연결하여 답변해주세요.\n\n" ++
  "참고 문서들:"

/-- The system message passed to the chat completion call in `query`. -/
def systemMessage : String :=
  "당신은 도움이 되는 AI 어시스턴트입니다. **중요: 오직 제공된 문서의 내용만을 사용하여 답변해주세요.** " ++
  "외부 지식이나 일반적인 법률 지식을 사용하지 마세요. 사용자가 '전체 내용을 그대로 보여달라'고 요청하면, " ++
  "해당 조항의 모든 내용을 빠짐없이 완전히 제공해주세요. 각 문서의 제목(파일명)을 주의 깊게 살펴보고, " ++
  "해당 문서와 관련된 내용을 우선적으로 참고해주세요. 사용자가 '저장하고 있는 문서가 뭐지?', " ++
  "'파일명을 알려달라' 등의 질문을 하면, 참고 문서들에서 파일명(=== 파일명 === 형태)을 찾아서 정확히 알려주세요. " ++
  "**절대로 제공된 문서에 없는 조항, 법령, 규정을 언급하지 마세요.** 문서에 없는 내용은 추측하지 말고, " ++
  "문서 내용과 이전 대화 맥락만을 바탕으로 답변해주세요. 만약 질문에 대한 답변이 제공된 문서에 없다면, " ++
  "'제공된 문서에는 해당 내용이 없습니다. 더 자세한 정보가 필요하시면 관련 문서를 업로드해주세요.'라고 답변해주세요."

open Classical in
/-- `RAGSystem.query`. The returned state records that no branch of the
source method mutates the index. The descending `similarities.sort(reverse=True)`
is a descending lexicographic sort on `(score, index)` pairs. -/
noncomputable def query (cfg : Config) (s : RAGState) (question : String)
    (chat_history : List Turn) : String × RAGState :=
  if s.embeddings.isEmpty then (noDocumentsMsg, s)
  else if cfg.openai_api_key.isNone then (notConfiguredMsg, s)
  else if filenameKeywords.any (fun kw => strContains question.toLower kw) then
    (handleFilenameQuestion s question, s)
  else
    let question_embedding := cfg.embed question
    if question_embedding.isEmpty then (embeddingFailedMsg, s)
    else
      let similarities := s.embeddings.enum.map
        (fun p => (cosineSimilarity question_embedding p.2, p.1))
      let sorted := similarities.insertionSort
        (fun a b => b.1 < a.1 ∨ (b.1 = a.1 ∧ b.2 ≤ a.2))
      let top_docs := sorted.take 5
      match top_docs with
      | [] => (noRelevantDocumentMsg, s)
      | best :: _ =>
        if best.1 < 3 / 100 then (noRelevantDocumentMsg, s)
        else
          let folded := top_docs.foldl (fun (acc : String × List Nat) sc =>
            if 1 / 10 < sc.1 ∧ ¬ acc.2.contains sc.2 then
              let filename := (s.documents.getD sc.2 default).filename
              let display_name :=
                if strContains filename "." then stripExtension filename else filename
              let connected := getConnectedChunks s.documents sc.2 display_name
              (acc.1 ++ "\n\n=== " ++ display_name ++ " ===\n" ++ connected,
               acc.2 ++ getRelatedChunkIndices s.documents sc.2)
            else acc) ("", [])
          let context := folded.1
          let context_info :=
            if chat_history.isEmpty then ""
            else
              let relevant_contexts := selectRelevantContext question chat_history 3
              if relevant_contexts.isEmpty then ""
              else
                relevant_contexts.foldl
                  (fun a c => a ++ "Q: " ++ c.question ++ "\nA: " ++ c.answer ++ "\n\n")
                  "\n\n이전 대화 맥락:\n"
          let prompt := promptHeader ++ context ++ context_info ++
            "\n\n질문: " ++ question ++ "\n\n답변:"
          (pyStrip (cfg.chat systemMessage prompt), s)

/-! ### Concrete fixtures used by witnesses and counterexamples -/

/-- A configuration with no API key and failing oracles. -/
def cfgW : Config := ⟨none, 1200, 200, fun _ => [], fun _ _ => ""⟩

/-- A configuration whose embedding oracle always succeeds with `[1.0]`. -/
def cfgEmbedW : Config := ⟨some "k", 1200, 200, fun _ => [(1 : ℝ)], fun _ _ => ""⟩

def sEmptyW : RAGState := ⟨[], [], []⟩

def docsOneW : List Doc := [⟨"A", "a", "a.txt", 0⟩]

def sOneW : RAGState := ⟨docsOneW, [[(1 : ℝ)]], buildStore docsOneW [[(1 : ℝ)]]⟩

/-- Five chunks `0..4` of a single document `"f"`. -/
def docs5W : List Doc :=
  [⟨"A", "f", "f.txt", 0⟩, ⟨"B", "f", "f.txt", 1⟩, ⟨"C", "f", "f.txt", 2⟩,
   ⟨"D", "f", "f.txt", 3⟩, ⟨"E", "f", "f.txt", 4⟩]

def docsRW : List Doc := [⟨"A", "x", "x.txt", 0⟩, ⟨"B", "y", "y.txt", 0⟩, ⟨"C", "x", "x.txt", 1⟩]

def embsRW : List Vec := [[1], [2], [3]]

def sRW : RAGState := ⟨docsRW, embsRW, buildStore docsRW embsRW⟩

/-- Ten chunks, three of which belong to document `"x"`. -/
def docs10W : List Doc :=
  [⟨"A", "x", "x.txt", 0⟩, ⟨"B", "x", "x.txt", 1⟩, ⟨"C", "x", "x.txt", 2⟩,
   ⟨"D", "a", "a.txt", 0⟩, ⟨"E", "a", "a.txt", 1⟩, ⟨"F", "b", "b.txt", 0⟩,
   ⟨"G", "b", "b.txt", 1⟩, ⟨"H", "b", "b.txt", 2⟩, ⟨"I", "c", "c.txt", 0⟩,
   ⟨"J", "c", "c.txt", 1⟩]

def embs10W : List Vec := [[1], [2], [3], [4], [5], [6], [7], [8], [9], [10]]

def s10W : RAGState := ⟨docs10W, embs10W, buildStore docs10W embs10W⟩

def hist2W : List Turn := [⟨"q1", "a1"⟩, ⟨"q2", "a2"⟩]

/-! ## Theorems -/

/-! ### C2: `_split_text` on a non-positive step -/

theorem splitTextGo_nonpos_step (cs ov : Int) (text : List Char)
    (hstep : cs ≤ ov) (hn : 0 < text.length) :
    ∀ (fuel : Nat) (start : Int), start ≤ 0 →
      ∀ chunks, splitTextGo cs ov text fuel start chunks = none := by
  intro fuel
  induction fuel with
  | zero => intro start _ chunks; rfl
  | succ fuel ih =>
    intro start hstart chunks
    have hlen : (0 : Int) < (text.length : Int) := by exact_mod_cast hn
    simp only [splitTextGo]
    rw [if_pos (by omega), if_neg (by omega)]
    exact ih (start + cs - ov) (by omega) _

/-- Claim C2: the claim says the non-positive step (`overlap ≥ chunk_size`) is
treated as an error or clamped to a minimum step of 1 so the sliding-window
loop always terminates.  The code does neither: `start = end - overlap` never
advances, so the `while` loop never terminates on a nonempty text — the
fuel-indexed model returns `none` for every fuel bound. -/
theorem split_text_nonterminating_on_large_overlap (cs ov : Int) (text : String)
    (hstep : cs ≤ ov) (hn : 0 < text.length) :
    (∀ (fuel : Nat) (chunks : List (List Char)),
        splitTextGo cs ov text.toList fuel 0 chunks = none) ∧
    splitText cs ov text = none := by
  have hn' : 0 < text.toList.length := hn
  constructor
  · intro fuel chunks
    exact splitTextGo_nonpos_step cs ov text.toList hstep hn' fuel 0 le_rfl chunks
  · unfold splitText
    rw [splitTextGo_nonpos_step cs ov text.toList hstep hn' _ 0 le_rfl]
    rfl

theorem split_text_nonterminating_witness :
    splitText 1200 1200 "ab" = none ∧ splitTextGo 1200 1200 "ab".toList 5 0 [] = none := by
  have h := split_text_nonterminating_on_large_overlap 1200 1200 "ab" (by norm_num) (by decide)
  exact ⟨h.2, h.1 5 []⟩

/-! ### C6: query on an empty index -/

/-- Claim C6: if the index holds no embeddings, `query` returns the fixed
"no documents yet" message and the index state is unchanged, for every
question and chat history. -/
theorem query_empty_index (cfg : Config) (s : RAGState) (question : String)
    (chat_history : List Turn) (h : s.embeddings = []) :
    query cfg s question chat_history = (noDocumentsMsg, s) := by
  have h1 : s.embeddings.isEmpty = true := by rw [h]; rfl
  unfold query
  rw [if_pos h1]

theorem query_empty_index_witness :
    query cfgW sEmptyW "아무 질문" [] = (noDocumentsMsg, sEmptyW) :=
  query_empty_index cfgW sEmptyW "아무 질문" [] rfl

/-! ### C10: query without an API key -/

/-- Claim C10: with a nonempty index and no configured API key, `query`
returns the fixed "not configured" message for every question — including
document-listing questions, since the filename-listing short-circuit is only
evaluated after the API-key check. -/
theorem query_no_api_key (cfg : Config) (s : RAGState) (question : String)
    (chat_history : List Turn) (hne : s.embeddings ≠ [])
    (hkey : cfg.openai_api_key = none) :
    query cfg s question chat_history = (notConfiguredMsg, s) := by
  have h1 : s.embeddings.isEmpty = false := by
    cases hemb : s.embeddings with
    | nil => exact absurd hemb hne
    | cons a l => rfl
  have h2 : cfg.openai_api_key.isNone = true := by rw [hkey]; rfl
  unfold query
  rw [h1, h2]
  simp

/-- The API-key refusal is produced even for a question that matches the
filename-listing cue words (`"목록"`). -/
theorem query_no_api_key_witness :
    query cfgW sOneW "저장된 문서 목록 알려줘" [] = (notConfiguredMsg, sOneW) :=
  query_no_api_key cfgW sOneW "저장된 문서 목록 알려줘" [] (by simp [sOneW]) rfl

/-! ### C5: cosine similarity -/

theorem dotProduct_self (v : List ℝ) : dotProduct v v = (v.map (fun x => x * x)).sum := by
  induction v with
  | nil => rfl
  | cons a t ih =>
    simp only [dotProduct, List.zip_cons_cons, List.map_cons, List.sum_cons] at ih ⊢
    rw [ih]

theorem dotProduct_self_nonneg (v : List ℝ) : 0 ≤ dotProduct v v := by
  rw [dotProduct_self]
  apply List.sum_nonneg
  intro x hx
  obtain ⟨y, _, rfl⟩ := List.mem_map.mp hx
  exact mul_self_nonneg y

theorem dotProduct_self_pos (v : List ℝ) (x : ℝ) (hx : x ∈ v) (hx0 : x ≠ 0) :
    0 < dotProduct v v := by
  rw [dotProduct_self]
  have h1 : x * x ≤ (v.map (fun x => x * x)).sum := by
    apply List.single_le_sum
    · intro y hy
      obtain ⟨z, _, rfl⟩ := List.mem_map.mp hy
      exact mul_self_nonneg z
    · exact List.mem_map_of_mem _ hx
  have h2 : 0 < x * x := mul_self_pos.mpr hx0
  linarith

theorem vecNorm_pos (v : List ℝ) (x : ℝ) (hx : x ∈ v) (hx0 : x ≠ 0) : 0 < vecNorm v :=
  Real.sqrt_pos.mpr (dotProduct_self_pos v x hx hx0)

theorem dotProduct_map_neg (v : List ℝ) :
    dotProduct v (v.map (fun x => -x)) = -dotProduct v v := by
  induction v with
  | nil => simp [dotProduct]
  | cons a t ih =>
    simp only [dotProduct, List.map_cons, List.zip_cons_cons, List.sum_cons] at ih ⊢
    rw [ih]; ring

theorem dotProduct_neg_neg (v : List ℝ) :
    dotProduct (v.map (fun x => -x)) (v.map (fun x => -x)) = dotProduct v v := by
  induction v with
  | nil => rfl
  | cons a t ih =>
    simp only [dotProduct, List.map_cons, List.zip_cons_cons, List.sum_cons] at ih ⊢
    rw [ih]; ring

theorem vecNorm_map_neg (v : List ℝ) : vecNorm (v.map (fun x => -x)) = vecNorm v := by
  unfold vecNorm
  rw [dotProduct_neg_neg]

theorem dotProduct_zero_left (v w : List ℝ) (hz : ∀ x ∈ v, x = 0) : dotProduct v w = 0 := by
  apply List.sum_eq_zero
  intro x hx
  obtain ⟨p, hp, rfl⟩ := List.mem_map.mp hx
  have := hz p.1 (List.of_mem_zip hp).1
  rw [this]; ring

theorem vecNorm_zero (v : List ℝ) (hz : ∀ x ∈ v, x = 0) : vecNorm v = 0 := by
  unfold vecNorm
  rw [dotProduct_zero_left v v hz]
  exact Real.sqrt_zero

theorem dotProduct_comm (v w : List ℝ) : dotProduct v w = dotProduct w v := by
  unfold dotProduct
  induction v generalizing w with
  | nil => cases w <;> rfl
  | cons a t ih =>
    cases w with
    | nil => rfl
    | cons b u => simp only [List.zip_cons_cons, List.map_cons, List.sum_cons, ih]; ring_nf

/-- Claim C5: `_cosine_similarity(v, v) = 1` for every vector with a nonzero
entry, `_cosine_similarity(v, -v) = -1`, and whenever either argument is the
zero vector the result is `0` (the division-by-zero guard fires). -/
theorem cosine_similarity_properties :
    (∀ v : List ℝ, (∃ x ∈ v, x ≠ 0) → cosineSimilarity v v = 1) ∧
    (∀ v : List ℝ, (∃ x ∈ v, x ≠ 0) → cosineSimilarity v (v.map (fun x => -x)) = -1) ∧
    (∀ v w : List ℝ, (∀ x ∈ v, x = 0) →
        cosineSimilarity v w = 0 ∧ cosineSimilarity w v = 0) := by
  refine ⟨?_, ?_, ?_⟩
  · rintro v ⟨x, hx, hx0⟩
    have hpos := dotProduct_self_pos v x hx hx0
    have hnorm := vecNorm_pos v x hx hx0
    unfold cosineSimilarity
    rw [if_neg (by push_neg; exact ⟨ne_of_gt hnorm, ne_of_gt hnorm⟩)]
    unfold vecNorm
    rw [Real.mul_self_sqrt (le_of_lt hpos)]
    exact div_self (ne_of_gt hpos)
  · rintro v ⟨x, hx, hx0⟩
    have hpos := dotProduct_self_pos v x hx hx0
    have hnorm := vecNorm_pos v x hx hx0
    unfold cosineSimilarity
    rw [if_neg (by push_neg; rw [vecNorm_map_neg]; exact ⟨ne_of_gt hnorm, ne_of_gt hnorm⟩)]
    rw [vecNorm_map_neg, dotProduct_map_neg]
    unfold vecNorm
    rw [Real.mul_self_sqrt (le_of_lt hpos)]
    rw [neg_div]
    rw [div_self (ne_of_gt hpos)]
  · intro v w hz
    constructor
    · unfold cosineSimilarity
      rw [if_pos (Or.inl (vecNorm_zero v hz))]
    · unfold cosineSimilarity
      rw [if_pos (Or.inr (vecNorm_zero v hz))]

/-! ### Infrastructure for `remove_document` (C3, C4, C9) -/

theorem indicesToRemoveFrom_ge (docs : List Doc) (fn : String) :
    ∀ (i j : Nat), j ∈ indicesToRemoveFrom docs fn i → i ≤ j := by
  induction docs with
  | nil => intro i j h; simp [indicesToRemoveFrom] at h
  | cons d rest ih =>
    intro i j h
    simp only [indicesToRemoveFrom] at h
    split at h
    · rcases List.mem_cons.mp h with rfl | h2
      · exact le_rfl
      · exact le_trans (Nat.le_succ i) (ih (i + 1) j h2)
    · exact le_trans (Nat.le_succ i) (ih (i + 1) j h)

theorem not_mem_indicesToRemoveFrom (docs : List Doc) (fn : String) (i j : Nat)
    (h : j < i) : j ∉ indicesToRemoveFrom docs fn i := by
  intro hmem
  exact absurd (indicesToRemoveFrom_ge docs fn i j hmem) (by omega)

theorem indicesToRemoveFrom_eq_nil (docs : List Doc) (fn : String)
    (h : ∀ d ∈ docs, d.filename ≠ fn) : ∀ i, indicesToRemoveFrom docs fn i = [] := by
  induction docs with
  | nil => intro i; rfl
  | cons d rest ih =>
    intro i
    simp only [indicesToRemoveFrom]
    rw [if_neg (h d (List.mem_cons_self d rest))]
    exact ih (fun e he => h e (List.mem_cons_of_mem d he)) (i + 1)

theorem deleteIndicesFrom_nil (l : List α) : ∀ i, deleteIndicesFrom l [] i = l := by
  induction l with
  | nil => intro i; rfl
  | cons a rest ih =>
    intro i
    simp only [deleteIndicesFrom]
    rw [if_neg (List.not_mem_nil i), ih]

theorem deleteIndicesFrom_cons_lt (l : List α) (idxs : List Nat) (j : Nat) :
    ∀ i, j < i → deleteIndicesFrom l (j :: idxs) i = deleteIndicesFrom l idxs i := by
  induction l with
  | nil => intro i _; rfl
  | cons a rest ih =>
    intro i hji
    by_cases hm : i ∈ idxs
    · simp only [deleteIndicesFrom]
      rw [if_pos (List.mem_cons_of_mem j hm), if_pos hm, ih (i + 1) (by omega)]
    · simp only [deleteIndicesFrom]
      rw [if_neg, if_neg hm, ih (i + 1) (by omega)]
      intro hcontra
      rcases List.mem_cons.mp hcontra with h1 | h1
      · omega
      · exact hm h1

theorem deleteIndices_indicesToRemove (fn : String) :
    ∀ (docs : List Doc) (i : Nat),
      deleteIndicesFrom docs (indicesToRemoveFrom docs fn i) i
        = docs.filter (fun d => !(d.filename == fn)) := by
  intro docs
  induction docs with
  | nil => intro i; rfl
  | cons d rest ih =>
    intro i
    by_cases hd : d.filename = fn
    · simp only [indicesToRemoveFrom, if_pos hd, deleteIndicesFrom]
      rw [if_pos (List.mem_cons_self i _)]
      rw [deleteIndicesFrom_cons_lt rest _ i (i + 1) (Nat.lt_succ_self i)]
      rw [ih (i + 1)]
      simp [List.filter_cons, hd]
    · simp only [indicesToRemoveFrom, if_neg hd, deleteIndicesFrom]
      rw [if_neg (not_mem_indicesToRemoveFrom rest fn (i + 1) i (Nat.lt_succ_self i))]
      rw [ih (i + 1)]
      simp [List.filter_cons, hd]

theorem deleteIndices_parallel (fn : String) :
    ∀ (docs : List Doc) (embs : List Vec) (i : Nat), docs.length = embs.length →
      deleteIndicesFrom embs (indicesToRemoveFrom docs fn i) i
        = ((docs.zip embs).filter (fun p => !(p.1.filename == fn))).map Prod.snd := by
  intro docs
  induction docs with
  | nil =>
    intro embs i h
    cases embs with
    | nil => rfl
    | cons e erest => simp at h
  | cons d rest ih =>
    intro embs i h
    cases embs with
    | nil => simp at h
    | cons e erest =>
      have hlen : rest.length = erest.length := by simpa using h
      by_cases hd : d.filename = fn
      · simp only [indicesToRemoveFrom, if_pos hd, deleteIndicesFrom]
        rw [if_pos (List.mem_cons_self i _)]
        rw [deleteIndicesFrom_cons_lt erest _ i (i + 1) (Nat.lt_succ_self i)]
        rw [ih erest (i + 1) hlen]
        simp [List.zip_cons_cons, List.filter_cons, hd]
      · simp only [indicesToRemoveFrom, if_neg hd, deleteIndicesFrom]
        rw [if_neg (not_mem_indicesToRemoveFrom rest fn (i + 1) i (Nat.lt_succ_self i))]
        rw [ih erest (i + 1) hlen]
        simp [List.zip_cons_cons, List.filter_cons, hd]

/-- `remove_document` in closed form: documents are filtered, embeddings are
deleted at the same positions, and the lookup map is rebuilt. -/
theorem removeDocument_eq (s : RAGState) (fn : String) :
    removeDocument s fn = (true,
      { documents := s.documents.filter (fun d => !(d.filename == fn)),
        embeddings := deleteIndicesFrom s.embeddings (indicesToRemoveFrom s.documents fn 0) 0,
        vector_store := buildStore (s.documents.filter (fun d => !(d.filename == fn)))
          (deleteIndicesFrom s.embeddings (indicesToRemoveFrom s.documents fn 0) 0) }) := by
  simp only [removeDocument]
  rw [deleteIndices_indicesToRemove]

theorem length_filter_zip (p : Doc → Bool) :
    ∀ (docs : List Doc) (embs : List Vec), docs.length = embs.length →
      ((docs.zip embs).filter (fun q => p q.1)).length = (docs.filter p).length := by
  intro docs
  induction docs with
  | nil => intro embs _; simp
  | cons d rest ih =>
    intro embs h
    cases embs with
    | nil => simp at h
    | cons e erest =>
      have hlen : rest.length = erest.length := by simpa using h
      by_cases hp : p d
      · simp [List.zip_cons_cons, List.filter_cons, hp, ih erest hlen]
      · simp only [List.zip_cons_cons, List.filter_cons] at *
        simp [hp, ih erest hlen]

theorem length_filter_not (p : Doc → Bool) (l : List Doc) :
    (l.filter (fun d => !(p d))).length = l.length - (l.filter p).length := by
  induction l with
  | nil => rfl
  | cons d rest ih =>
    have hle := List.length_filter_le p rest
    by_cases hp : p d
    · rw [List.filter_cons, List.filter_cons, if_neg (by simp [hp]), if_pos (by simp [hp])]
      simp only [List.length_cons]
      rw [ih]
      omega
    · rw [List.filter_cons, List.filter_cons, if_pos (by simp [hp]), if_neg (by simp [hp])]
      simp only [List.length_cons]
      rw [ih]
      omega

theorem dictInsert_key_sub (m : List (String × Vec)) (k : String) (v : Vec) :
    ∀ x, (∃ w, (x, w) ∈ dictInsert m k v) → x = k ∨ ∃ w, (x, w) ∈ m := by
  induction m with
  | nil =>
    intro x ⟨w, hw⟩
    simp only [dictInsert, List.mem_singleton] at hw
    left
    exact congrArg Prod.fst hw
  | cons p rest ih =>
    intro x ⟨w, hw⟩
    simp only [dictInsert] at hw
    split at hw
    · rcases List.mem_cons.mp hw with h1 | h1
      · left
        rename_i hk
        have := congrArg Prod.fst h1
        simp at this
        rw [this, hk]
      · right
        exact ⟨w, List.mem_cons_of_mem _ h1⟩
    · rcases List.mem_cons.mp hw with h1 | h1
      · right
        refine ⟨p.2, ?_⟩
        have hx : x = p.1 := congrArg Prod.fst h1
        rw [hx]
        exact List.mem_cons_self p rest
      · rcases ih x ⟨w, h1⟩ with h2 | ⟨w', h2⟩
        · left; exact h2
        · right; exact ⟨w', List.mem_cons_of_mem _ h2⟩

theorem buildStore_fold_key :
    ∀ (pairs : List (Doc × Vec)) (m : List (String × Vec)) (kv : String × Vec),
      kv ∈ pairs.foldl (fun acc p => dictInsert acc (chunkKey p.1.filename p.1.chunk_id) p.2) m →
      (∃ w, (kv.1, w) ∈ m) ∨
        ∃ d, (∃ v, (d, v) ∈ pairs) ∧ kv.1 = chunkKey d.filename d.chunk_id := by
  intro pairs
  induction pairs with
  | nil =>
    intro m kv h
    left
    exact ⟨kv.2, by simpa using h⟩
  | cons p rest ih =>
    intro m kv h
    simp only [List.foldl_cons] at h
    rcases ih _ kv h with ⟨w, hw⟩ | ⟨d, ⟨v, hv⟩, hkey⟩
    · rcases dictInsert_key_sub m _ _ kv.1 ⟨w, hw⟩ with h1 | ⟨w', hw'⟩
      · right
        exact ⟨p.1, ⟨p.2, by simp⟩, h1⟩
      · left
        exact ⟨w', hw'⟩
    · right
      exact ⟨d, ⟨v, List.mem_cons_of_mem p hv⟩, hkey⟩

theorem mem_buildStore_key (docs : List Doc) (embs : List Vec) (kv : String × Vec)
    (h : kv ∈ buildStore docs embs) :
    ∃ d ∈ docs, kv.1 = chunkKey d.filename d.chunk_id := by
  rcases buildStore_fold_key (docs.zip embs) [] kv h with ⟨w, hw⟩ | ⟨d, ⟨v, hv⟩, hkey⟩
  · exact absurd hw (List.not_mem_nil _)
  · exact ⟨d, (List.of_mem_zip hv).1, hkey⟩

/-! ### C4: exactness of `remove_document` -/

/-- Claim C4: `remove_document(name)` removes exactly the (chunk, vector)
pairs whose stored filename equals `name`, rebuilds the lookup map from the
remaining pairs (so that every key of the rebuilt map comes from a remaining
chunk, none of which belongs to the removed document), and the number of
remaining chunks is the old count minus the number of matching chunks. -/
theorem remove_document_exact (s : RAGState) (fn : String)
    (hlen : s.documents.length = s.embeddings.length) :
    (removeDocument s fn).1 = true ∧
    (removeDocument s fn).2.documents = s.documents.filter (fun d => !(d.filename == fn)) ∧
    (removeDocument s fn).2.embeddings
      = ((s.documents.zip s.embeddings).filter (fun p => !(p.1.filename == fn))).map Prod.snd ∧
    (∀ kv ∈ (removeDocument s fn).2.vector_store,
        ∃ d ∈ (removeDocument s fn).2.documents,
          kv.1 = chunkKey d.filename d.chunk_id ∧ d.filename ≠ fn) ∧
    (removeDocument s fn).2.documents.length
      = s.documents.length - (s.documents.filter (fun d => d.filename == fn)).length := by
  rw [removeDocument_eq s fn]
  refine ⟨rfl, rfl, deleteIndices_parallel fn s.documents s.embeddings 0 hlen, ?_, ?_⟩
  · intro kv hkv
    obtain ⟨d, hd, hkey⟩ := mem_buildStore_key _ _ kv hkv
    refine ⟨d, hd, hkey, ?_⟩
    have := (List.mem_filter.mp hd).2
    simpa using this
  · exact length_filter_not (fun d => d.filename == fn) s.documents

/-- Scenario E: removing the 3-chunk document `"x"` from a 10-chunk index
leaves exactly 7 chunks. -/
theorem remove_document_exact_witness :
    (removeDocument s10W "x").2.documents.length = 7 := by
  have h := remove_document_exact s10W "x" rfl
  rw [h.2.2.2.2]
  decide

/-! ### C9: idempotence of `remove_document` -/

/-- Claim C9: `remove_document` is idempotent — a second call with the same
name yields exactly the same index state — and removing a document that is
not present is a no-op that returns success and leaves a well-formed index
(lookup map derived from its pairs, as every reachable index is) unchanged. -/
theorem remove_document_idempotent :
    (∀ (s : RAGState) (fn : String),
        removeDocument (removeDocument s fn).2 fn = removeDocument s fn) ∧
    (∀ (s : RAGState) (fn : String),
        (∀ d ∈ s.documents, d.filename ≠ fn) →
        s.vector_store = buildStore s.documents s.embeddings →
        removeDocument s fn = (true, s)) := by
  constructor
  · intro s fn
    rw [removeDocument_eq s fn]
    have hclean : ∀ d ∈ s.documents.filter (fun d => !(d.filename == fn)), d.filename ≠ fn := by
      intro d hd
      have := (List.mem_filter.mp hd).2
      simpa using this
    have hidx := indicesToRemoveFrom_eq_nil _ fn hclean 0
    rw [removeDocument_eq]
    simp only [hidx, deleteIndicesFrom_nil]
    rw [List.filter_filter]
    simp
  · intro s fn hnone hwf
    have hidx := indicesToRemoveFrom_eq_nil s.documents fn hnone 0
    unfold removeDocument
    rw [hidx]
    simp only [deleteIndicesFrom_nil]
    rw [← hwf]

theorem remove_document_idempotent_witness :
    removeDocument (removeDocument sRW "x").2 "x" = removeDocument sRW "x" ∧
    removeDocument sRW "zzz" = (true, sRW) := by
  have h := remove_document_idempotent
  exact ⟨h.1 sRW "x", h.2 sRW "zzz" (by decide) rfl⟩

/-! ### C3: the parallel-array invariant -/

theorem ingest_foldl_parallel (cfg : Config) (actual stored : String) :
    ∀ (ps : List (Nat × String)) (s0 : RAGState),
      s0.documents.length = s0.embeddings.length →
      (ps.foldl (ingestChunk cfg actual stored) s0).documents.length
        = (ps.foldl (ingestChunk cfg actual stored) s0).embeddings.length := by
  intro ps
  induction ps with
  | nil => intro s0 h; exact h
  | cons p rest ih =>
    intro s0 h
    simp only [List.foldl_cons]
    apply ih
    simp only [ingestChunk]
    split
    · exact h
    · simp [h]

theorem rebuild_foldl_parallel (cfg : Config) :
    ∀ (ds : List Doc) (st : RAGState),
      st.documents.length = st.embeddings.length →
      (ds.foldl (rebuildStep cfg) st).documents.length
        = (ds.foldl (rebuildStep cfg) st).embeddings.length := by
  intro ds
  induction ds with
  | nil => intro st h; exact h
  | cons d rest ih =>
    intro st h
    simp only [List.foldl_cons]
    apply ih
    simp only [rebuildStep]
    split
    · exact h
    · simp [h]

/-- Claim C3: `len(documents) = len(embeddings)` is preserved by every index
operation: `add_document` (whenever it returns), `remove_document`,
`clear_index` and `rebuild_index`. -/
theorem index_ops_preserve_parallel (cfg : Config) (s : RAGState)
    (content actual stored fn : String)
    (h : s.documents.length = s.embeddings.length) :
    (∀ r, addDocument cfg s content actual stored = some r →
        r.2.documents.length = r.2.embeddings.length) ∧
    (removeDocument s fn).2.documents.length = (removeDocument s fn).2.embeddings.length ∧
    (clearIndex s).2.documents.length = (clearIndex s).2.embeddings.length ∧
    (rebuildIndex cfg s).2.documents.length = (rebuildIndex cfg s).2.embeddings.length := by
  refine ⟨?_, ?_, rfl, ?_⟩
  · intro r hr
    unfold addDocument at hr
    cases hsplit : splitText cfg.chunk_size cfg.chunk_overlap content with
    | none => rw [hsplit] at hr; exact absurd hr (by simp)
    | some chunks =>
      rw [hsplit] at hr
      simp only [Option.map_some'] at hr
      have := Option.some.inj hr
      rw [← this]
      exact ingest_foldl_parallel cfg actual stored chunks.enum s h
  · rw [removeDocument_eq s fn]
    show (s.documents.filter fun d => !(d.filename == fn)).length
        = (deleteIndicesFrom s.embeddings (indicesToRemoveFrom s.documents fn 0) 0).length
    rw [deleteIndices_parallel fn s.documents s.embeddings 0 h, List.length_map]
    exact (length_filter_zip (fun d => !(d.filename == fn)) s.documents s.embeddings h).symm
  · exact rebuild_foldl_parallel cfg s.documents _ rfl

theorem index_ops_preserve_parallel_witness :
    (removeDocument sRW "x").2.documents.length = (removeDocument sRW "x").2.embeddings.length ∧
    (clearIndex sRW).2.documents.length = (clearIndex sRW).2.embeddings.length ∧
    (rebuildIndex cfgEmbedW sRW).2.documents.length
      = (rebuildIndex cfgEmbedW sRW).2.embeddings.length := by
  have h := index_ops_preserve_parallel cfgEmbedW sRW "ab" "a" "a.txt" "x" rfl
  exact ⟨h.2.1, h.2.2.1, h.2.2.2⟩

/-! ### C8: the conversation-memory short-circuit -/

theorem drop_length_sub_one {l : List Turn} (h : l ≠ []) :
    ∃ t, l.getLast? = some t ∧ l.drop (l.length - 1) = [t] := by
  induction l with
  | nil => exact absurd rfl h
  | cons a tl ih =>
    cases tl with
    | nil => exact ⟨a, rfl, rfl⟩
    | cons b tl' =>
      obtain ⟨t, h1, h2⟩ := ih (by simp)
      refine ⟨t, ?_, ?_⟩
      · rw [List.getLast?_cons_cons, h1]
      · have hlen : (a :: b :: tl').length - 1 = tl'.length + 1 := by simp
        rw [hlen, List.drop_succ_cons]
        have hlen2 : (b :: tl').length - 1 = tl'.length := by simp
        rw [hlen2] at h2
        exact h2

theorem getLast?_drop (l : List Turn) : ∀ k, k < l.length → (l.drop k).getLast? = l.getLast? := by
  induction l with
  | nil => intro k h; simp at h
  | cons a tl ih =>
    intro k hk
    cases k with
    | zero => rfl
    | succ k' =>
      rw [List.drop_succ_cons, ih k' (by simpa using hk)]
      cases tl with
      | nil => simp at hk
      | cons b tl' => rw [List.getLast?_cons_cons]

/-- Claim C8: for every nonempty history, if the question contains one of the
fixed context-continuation cue phrases, or its extracted keyword set has
fewer than 2 terms, then `_select_relevant_context` returns exactly the
single most recent turn. -/
theorem select_context_short_circuit (q : String) (history : List Turn)
    (hne : history ≠ [])
    (hcond : contextConnectionKeywords.any (fun k => strContains q k) = true
           ∨ (extractKeywords q).dedup.length < 2) :
    ∃ t, history.getLast? = some t ∧ selectRelevantContext q history 3 = [t] := by
  have hhe : history.isEmpty = false := by
    cases history with
    | nil => exact absurd rfl hne
    | cons a l => rfl
  have hrne : (if history.length > 50 then history.drop (history.length - 50)
      else history) ≠ [] := by
    split
    · rename_i hgt
      have hlen : (history.drop (history.length - 50)).length = 50 := by
        rw [List.length_drop]; omega
      intro hnil
      rw [hnil] at hlen
      simp at hlen
    · exact hne
  have hre : (if history.length > 50 then history.drop (history.length - 50)
      else history).isEmpty = false := by
    cases hx : (if history.length > 50 then history.drop (history.length - 50)
      else history) with
    | nil => exact absurd hx hrne
    | cons a l => rfl
  have hcnd : (((extractKeywords q).dedup.isEmpty
        || decide ((extractKeywords q).dedup.length < 2))
        || contextConnectionKeywords.any (fun k => strContains q k)) = true := by
    rcases hcond with hc | hc
    · simp [hc]
    · simp [hc]
  obtain ⟨t, h1, h2⟩ := drop_length_sub_one hrne
  refine ⟨t, ?_, ?_⟩
  · rw [← h1]
    split
    · rename_i hgt
      exact (getLast?_drop history _ (by omega)).symm
    · rfl
  · simp only [selectRelevantContext, hhe, Bool.false_eq_true, if_false, hre, hcnd, if_true]
    exact h2

theorem select_context_witness :
    selectRelevantContext "그것 관련" hist2W 3 = [⟨"q2", "a2"⟩] := by
  obtain ⟨t, h1, h2⟩ := select_context_short_circuit "그것 관련" hist2W (by decide)
    (Or.inl (by decide))
  have hlast : hist2W.getLast? = some (⟨"q2", "a2"⟩ : Turn) := rfl
  rw [hlast] at h1
  rw [← Option.some.inj h1] at h2
  exact h2

/-! ### C7: the connected-chunks context window -/

/-- Claim C7 counterexample: for a document `"f"` with five chunks `0..4` and
a matched chunk of sequence 2, all five chunks lie within `±2` of the match,
so the claim ("up to 5 chunks: up to 2 before and 2 after, concatenated in
ascending order") predicts the block `"A\nB\nC\nD\nE"`; the code truncates
the window to 3 chunks and produces `"A\nB\nC"`. -/
theorem connected_chunks_counterexample :
    getConnectedChunks docs5W 2 "f" = "A\nB\nC" ∧
    getConnectedChunks docs5W 2 "f" ≠ "A\nB\nC\nD\nE" := by
  constructor
  · decide
  · decide

theorem selectedWindow_length_le (docs : List Doc) (chunk_idx : Nat) :
    (selectedWindow docs chunk_idx).length ≤ 3 := by
  simp only [selectedWindow]
  split
  · simp [List.length_take]
  · rename_i hn
    omega

theorem selectedWindow_pairwise (docs : List Doc) (chunk_idx : Nat) :
    (selectedWindow docs chunk_idx).Pairwise
      (fun a b : Nat × Nat × String => a.1 ≤ b.1) := by
  have htot : IsTotal (Nat × Nat × String) (fun a b => a.1 ≤ b.1) :=
    ⟨fun a b => Nat.le_total a.1 b.1⟩
  have htr : IsTrans (Nat × Nat × String) (fun a b => a.1 ≤ b.1) :=
    ⟨fun a b c h1 h2 => Nat.le_trans h1 h2⟩
  have h1 : ∀ l : List (Nat × Nat × String),
      (l.insertionSort (fun a b => a.1 ≤ b.1)).Pairwise (fun a b => a.1 ≤ b.1) :=
    fun l => @List.sorted_insertionSort _ _ _ htot htr l
  simp only [selectedWindow]
  split
  · exact List.Pairwise.sublist (List.take_sublist _ _) ((h1 _).filter _)
  · exact (h1 _).filter _

theorem selectedWindow_sublist (docs : List Doc) (chunk_idx : Nat) :
    (selectedWindow docs chunk_idx).Sublist
      ((((docs.enum.filter
            (fun p => p.2.filename == (docs.getD chunk_idx default).filename)).map
          (fun p => (p.2.chunk_id, p.1, p.2.content))).insertionSort
            (fun a b => a.1 ≤ b.1)).filter
        (fun t =>
          decide (((t.1 : Int) - ((docs.getD chunk_idx default).chunk_id : Int)).natAbs ≤ 2))) := by
  simp only [selectedWindow]
  split
  · exact List.take_sublist _ _
  · exact List.Sublist.refl _

theorem selectedWindow_mem (docs : List Doc) (chunk_idx : Nat)
    (h : chunk_idx < docs.length) :
    ∀ t ∈ selectedWindow docs chunk_idx, ∃ j, ∃ hj : j < docs.length,
      (docs.get ⟨j, hj⟩).filename = (docs.get ⟨chunk_idx, h⟩).filename ∧
      (docs.get ⟨j, hj⟩).chunk_id = t.1 ∧
      (docs.get ⟨j, hj⟩).content = t.2.2 ∧
      ((t.1 : Int) - ((docs.get ⟨chunk_idx, h⟩).chunk_id : Int)).natAbs ≤ 2 := by
  intro t ht
  have hcur : docs.getD chunk_idx default = docs.get ⟨chunk_idx, h⟩ :=
    List.getD_eq_get docs default h
  have h1 := (selectedWindow_sublist docs chunk_idx).subset ht
  have h2 := List.mem_filter.mp h1
  have hcond2 : ((t.1 : Int) - ((docs.getD chunk_idx default).chunk_id : Int)).natAbs ≤ 2 := by
    have := h2.2
    simpa using this
  have h3 := (List.perm_insertionSort
    (fun a b : Nat × Nat × String => a.1 ≤ b.1) _).mem_iff.mp h2.1
  obtain ⟨p, hp, hpt⟩ := List.mem_map.mp h3
  have hp2 := List.mem_filter.mp hp
  have hpe : docs.get? p.1 = some p.2 := List.mem_enum_iff_get?.mp hp2.1
  rw [List.get?_eq_some] at hpe
  obtain ⟨hj, hget⟩ := hpe
  have hfn : p.2.filename = (docs.getD chunk_idx default).filename := by
    have := hp2.2
    simpa using this
  refine ⟨p.1, hj, ?_, ?_, ?_, ?_⟩
  · rw [hget, hfn, hcur]
  · rw [hget, ← hpt]
  · rw [hget, ← hpt]
  · rw [← hcur]
    exact hcond2

/-- Claim C7 (amended): the assembled context block for a matched chunk is the
newline concatenation (then `strip()`) of at most 3 chunks — the `±2`
`chunk_id` window around the matched chunk truncated to its 3 lowest
sequence numbers — in ascending sequence order, all taken from the matched
chunk's document. -/
theorem connected_chunks_window (docs : List Doc) (chunk_idx : Nat)
    (h : chunk_idx < docs.length) (dn : String) :
    getConnectedChunks docs chunk_idx dn
      = pyStrip ((selectedWindow docs chunk_idx).foldl
          (fun acc t => acc ++ t.2.2 ++ "\n") "") ∧
    (selectedWindow docs chunk_idx).length ≤ 3 ∧
    (selectedWindow docs chunk_idx).Pairwise (fun a b => a.1 ≤ b.1) ∧
    (∀ t ∈ selectedWindow docs chunk_idx, ∃ j, ∃ hj : j < docs.length,
        (docs.get ⟨j, hj⟩).filename = (docs.get ⟨chunk_idx, h⟩).filename ∧
        (docs.get ⟨j, hj⟩).chunk_id = t.1 ∧
        (docs.get ⟨j, hj⟩).content = t.2.2 ∧
        ((t.1 : Int) - ((docs.get ⟨chunk_idx, h⟩).chunk_id : Int)).natAbs ≤ 2) :=
  ⟨rfl, selectedWindow_length_le docs chunk_idx, selectedWindow_pairwise docs chunk_idx,
    selectedWindow_mem docs chunk_idx h⟩

theorem connected_chunks_window_witness :
    getConnectedChunks docs5W 1 "f"
      = pyStrip ((selectedWindow docs5W 1).foldl (fun acc t => acc ++ t.2.2 ++ "\n") "") ∧
    (selectedWindow docs5W 1).length ≤ 3 := by
  have h := connected_chunks_window docs5W 1 (by decide) "f"
  exact ⟨h.1, h.2.1⟩

/-! ### C1: chunk coverage and window offsets -/

theorem pyIdx_natCast (n a : Nat) : pyIdx n (a : Int) = min a n := by
  unfold pyIdx
  rw [if_neg (by omega)]
  rcases Nat.le_total a n with hle | hle
  · rw [min_eq_left (by exact_mod_cast hle : (a : Int) ≤ (n : Int))]
    rw [max_eq_right (Int.natCast_nonneg a), Int.toNat_natCast]
    exact (min_eq_left hle).symm
  · rw [min_eq_right (by exact_mod_cast hle : (n : Int) ≤ (a : Int))]
    rw [max_eq_right (Int.natCast_nonneg n), Int.toNat_natCast]
    exact (min_eq_right hle).symm

theorem pySlice_natCast (l : List Char) (a c : Nat) :
    pySlice l (a : Int) ((a : Int) + (c : Int)) = (l.drop a).take c := by
  unfold pySlice
  have h1 : (a : Int) + (c : Int) = ((a + c : Nat) : Int) := by push_cast; ring
  rw [h1, pyIdx_natCast, pyIdx_natCast]
  rcases Nat.lt_or_ge a l.length with hlt | hge
  · rw [min_eq_left (le_of_lt hlt)]
    rcases Nat.le_total (a + c) l.length with hc | hc
    · rw [min_eq_left hc]
      congr 1
      omega
    · rw [min_eq_right hc]
      have hdl : (l.drop a).length = l.length - a := List.length_drop a l
      rw [List.take_of_length_le (by omega), List.take_of_length_le (by omega)]
  · rw [min_eq_right hge]
    have h2 : l.drop l.length = [] := by simp
    have h3 : l.drop a = [] := List.drop_eq_nil_of_le hge
    rw [h2, h3]
    simp

theorem splitTextGo_pos_spec (cs ov : Nat) (hov : 0 < ov) (hcs : ov < cs) (l : List Char) :
    ∀ (fuel start : Nat) (acc : List (List Char)),
      start < l.length →
      l.length - start ≤ fuel * (cs - ov) →
      ∃ m, 0 < m ∧
        splitTextGo (cs : Int) (ov : Int) l fuel (start : Int) acc
          = some (acc ++ (List.range m).map
              (fun j => (l.drop (start + j * (cs - ov))).take cs)) ∧
        (∀ j, j < m → start + j * (cs - ov) < l.length) ∧
        l.length ≤ start + m * (cs - ov) := by
  intro fuel
  induction fuel with
  | zero =>
    intro start acc h1 h2
    simp only [Nat.zero_mul] at h2
    omega
  | succ fuel ih =>
    intro start acc h1 h2
    have hstep : 0 < cs - ov := by omega
    have hlguard : (start : Int) < (l.length : Int) := by exact_mod_cast h1
    have hslice : pySlice l (start : Int) ((start : Int) + (cs : Int))
        = (l.drop start).take cs := pySlice_natCast l start cs
    have hcast : (start : Int) + (cs : Int) - (ov : Int)
        = ((start + (cs - ov) : Nat) : Int) := by omega
    have hgo : splitTextGo (cs : Int) (ov : Int) l (fuel + 1) (start : Int) acc
        = if (l.length : Int) ≤ (start : Int) + (cs : Int) - (ov : Int)
          then some (acc ++ [(l.drop start).take cs])
          else splitTextGo (cs : Int) (ov : Int) l fuel
                ((start : Int) + (cs : Int) - (ov : Int))
                (acc ++ [(l.drop start).take cs]) := by
      simp only [splitTextGo]
      rw [if_pos hlguard, hslice]
    by_cases hbr : l.length ≤ start + (cs - ov)
    · have hbr' : (l.length : Int) ≤ (start : Int) + (cs : Int) - (ov : Int) := by omega
      refine ⟨1, Nat.one_pos, ?_, ?_, ?_⟩
      · rw [hgo, if_pos hbr']
        simp [List.range_succ]
      · intro j hj
        have hj0 : j = 0 := by omega
        subst hj0
        simpa using h1
      · simpa using hbr
    · push_neg at hbr
      have hbr' : ¬ ((l.length : Int) ≤ (start : Int) + (cs : Int) - (ov : Int)) := by omega
      have h2' : l.length - (start + (cs - ov)) ≤ fuel * (cs - ov) := by
        have hsm : (fuel + 1) * (cs - ov) = fuel * (cs - ov) + (cs - ov) := Nat.succ_mul _ _
        rw [hsm] at h2
        omega
      obtain ⟨m', hm'pos, heq, hbound, hlast⟩ :=
        ih (start + (cs - ov)) (acc ++ [(l.drop start).take cs]) hbr h2'
      refine ⟨m' + 1, by omega, ?_, ?_, ?_⟩
      · rw [hgo, if_neg hbr', hcast, heq]
        have hlist : acc ++ [List.take cs (List.drop start l)] ++
              (List.range m').map
                (fun j => List.take cs (List.drop (start + (cs - ov) + j * (cs - ov)) l))
            = acc ++ (List.range (m' + 1)).map
                (fun j => List.take cs (List.drop (start + j * (cs - ov)) l)) := by
          rw [List.append_assoc, List.singleton_append]
          congr 1
          rw [List.range_succ_eq_map, List.map_cons, List.map_map]
          congr 1
          · simp
          · apply List.map_congr_left
            intro j _
            simp only [Function.comp_apply, Nat.succ_eq_add_one]
            have harith : start + (cs - ov) + j * (cs - ov)
                = start + (j + 1) * (cs - ov) := by
              rw [Nat.succ_mul]; ring
            rw [harith]
        rw [hlist]
      · intro j hj
        cases j with
        | zero => simpa using h1
        | succ j' =>
          have hb := hbound j' (by omega)
          have h3 : start + (j' + 1) * (cs - ov)
              = start + (cs - ov) + j' * (cs - ov) := by
            rw [Nat.succ_mul]; ring
          rw [h3]
          exact hb
      · have h4 : start + (m' + 1) * (cs - ov)
            = start + (cs - ov) + m' * (cs - ov) := by
          rw [Nat.succ_mul]; ring
        rw [h4]
        exact hlast

theorem slice_get? (l : List Char) (a c j : Nat) (hj : j < l.length)
    (h1 : a ≤ j) (h2 : j < a + c) :
    ((l.drop a).take c).get? (j - a) = some (l.get ⟨j, hj⟩) := by
  rw [List.get?_take (by omega)]
  rw [List.get?_drop]
  rw [show a + (j - a) = j from by omega]
  exact List.get?_eq_get hj

/-- Claim C1: for every text and configuration with `0 < overlap < chunk_size`,
`_split_text` terminates; window `i` is the `chunk_size`-character slice of the
text starting at offset `i * (chunk_size - overlap)`; every character of the
text appears in at least one window; and a 3000-character text with
`chunk_size = 1200`, `overlap = 200` yields exactly 3 chunks (hence sequence
numbers 0, 1, 2 and offsets 0, 1000, 2000). -/
theorem split_text_covers (text : String) (cs ov : Nat) (hov : 0 < ov) (hcs : ov < cs) :
    ∃ chunks : List String,
      splitText (cs : Int) (ov : Int) text = some chunks ∧
      (∀ i, ∀ hi : i < chunks.length,
          chunks.get ⟨i, hi⟩ = String.mk ((text.toList.drop (i * (cs - ov))).take cs)) ∧
      (∀ j, ∀ hj : j < text.toList.length, ∃ i, ∃ hi : i < chunks.length,
          i * (cs - ov) ≤ j ∧ j < i * (cs - ov) + cs ∧
          text.toList.get ⟨j, hj⟩ ∈ (chunks.get ⟨i, hi⟩).toList) ∧
      (text.length = 3000 → cs = 1200 → ov = 200 → chunks.length = 3) := by
  have hlenl : text.length = text.toList.length := rfl
  by_cases h0 : text.toList.length = 0
  · refine ⟨[], ?_, ?_, ?_, ?_⟩
    · unfold splitText
      have hguard : ¬ ((0 : Int) < (text.toList.length : Int)) := by omega
      have hfuel : text.length + 1 = 0 + 1 := by omega
      rw [hfuel]
      simp only [splitTextGo]
      rw [if_neg hguard]
      rfl
    · intro i hi
      simp at hi
    · intro j hj
      omega
    · intro h3000 _ _
      omega
  · have hpos : 0 < text.toList.length := by omega
    have hfe : text.toList.length - 0 ≤ (text.length + 1) * (cs - ov) := by
      have hmul : (text.length + 1) * 1 ≤ (text.length + 1) * (cs - ov) :=
        Nat.mul_le_mul_left _ (by omega)
      omega
    obtain ⟨m, hm, heq, hbound, hlast⟩ :=
      splitTextGo_pos_spec cs ov hov hcs text.toList (text.length + 1) 0 [] hpos hfe
    simp only [Nat.cast_zero, Nat.zero_add, List.nil_append] at heq hbound hlast
    refine ⟨(List.range m).map
      (fun j => String.mk ((text.toList.drop (j * (cs - ov))).take cs)), ?_, ?_, ?_, ?_⟩
    · unfold splitText
      rw [heq]
      simp only [Option.map_some', List.map_map]
      rfl
    · intro i hi
      simp [List.get_eq_getElem]
    · intro j hj
      have hstep : 0 < cs - ov := by omega
      by_cases hij : j / (cs - ov) ≤ m - 1
      · refine ⟨j / (cs - ov), ?_, Nat.div_mul_le_self j (cs - ov), ?_, ?_⟩
        · simp only [List.length_map, List.length_range]
          omega
        · have hdm := Nat.div_add_mod j (cs - ov)
          have hmod : j % (cs - ov) < cs - ov := Nat.mod_lt j hstep
          rw [Nat.mul_comm] at hdm
          omega
        · have hmem := List.get?_mem (slice_get? text.toList (j / (cs - ov) * (cs - ov)) cs j hj
            (Nat.div_mul_le_self j (cs - ov))
            (by
              have hdm := Nat.div_add_mod j (cs - ov)
              have hmod : j % (cs - ov) < cs - ov := Nat.mod_lt j hstep
              rw [Nat.mul_comm] at hdm
              omega))
          have hchunk : (((List.range m).map
              (fun j => String.mk ((text.toList.drop (j * (cs - ov))).take cs))).get
                ⟨j / (cs - ov), by simp only [List.length_map, List.length_range]; omega⟩).toList
              = (text.toList.drop (j / (cs - ov) * (cs - ov))).take cs := by
            simp [List.get_eq_getElem]
          rw [hchunk]
          exact hmem
      · push_neg at hij
        obtain ⟨m'', rfl⟩ : ∃ k, m = k + 1 := ⟨m - 1, by omega⟩
        have hge : m'' * (cs - ov) ≤ j := by
          have h5 : m'' ≤ j / (cs - ov) := by omega
          calc m'' * (cs - ov) ≤ j / (cs - ov) * (cs - ov) :=
                Nat.mul_le_mul_right _ h5
            _ ≤ j := Nat.div_mul_le_self j (cs - ov)
        have hlt : j < m'' * (cs - ov) + cs := by
          have h6 : (m'' + 1) * (cs - ov) = m'' * (cs - ov) + (cs - ov) :=
            Nat.succ_mul _ _
          rw [h6] at hlast
          omega
        refine ⟨m'', by simp only [List.length_map, List.length_range]; omega, hge, hlt, ?_⟩
        have hmem := List.get?_mem (slice_get? text.toList (m'' * (cs - ov)) cs j hj hge hlt)
        have hchunk : (((List.range (m'' + 1)).map
            (fun j => String.mk ((text.toList.drop (j * (cs - ov))).take cs))).get
              ⟨m'', by simp only [List.length_map, List.length_range]; omega⟩).toList
            = (text.toList.drop (m'' * (cs - ov))).take cs := by
          simp [List.get_eq_getElem]
        rw [hchunk]
        exact hmem
    · intro h3000 h1200 h200
      subst h1200
      subst h200
      have hb := hbound (m - 1) (by omega)
      simp only [List.length_map, List.length_range]
      norm_num at hb hlast
      omega

theorem split_text_covers_witness :
    (splitText 3 1 "abcde").isSome = true ∧
    ((splitText 1200 200 (String.mk (List.replicate 3000 'a'))).getD []).length = 3 := by
  constructor
  · obtain ⟨chunks, h1, -, -, -⟩ := split_text_covers "abcde" 3 1 (by norm_num) (by norm_num)
    simp only [Nat.cast_ofNat, Nat.cast_one] at h1
    rw [h1]
    rfl
  · obtain ⟨chunks, h1, -, -, hs⟩ :=
      split_text_covers (String.mk (List.replicate 3000 'a')) 1200 200 (by norm_num) (by norm_num)
    simp only [Nat.cast_ofNat] at h1
    rw [h1]
    simp only [Option.getD_some]
    refine hs ?_ rfl rfl
    rw [show (String.mk (List.replicate 3000 'a')).length
        = (List.replicate 3000 'a').length from rfl]
    exact List.length_replicate 3000 'a'

theorem cosine_similarity_witness :
    cosineSimilarity [(1 : ℝ)] [(1 : ℝ)] = 1 ∧
    cosineSimilarity [(1 : ℝ)] [(-1 : ℝ)] = -1 ∧
    cosineSimilarity [(0 : ℝ)] [(5 : ℝ)] = 0 := by
  have h := cosine_similarity_properties
  refine ⟨h.1 [(1 : ℝ)] ⟨1, by simp⟩, ?_, (h.2.2 [(0 : ℝ)] [(5 : ℝ)] (by simp)).1⟩
  have h2 := h.2.1 [(1 : ℝ)] ⟨1, by simp⟩
  simpa using h2

end Chatbot
